import Mathlib

/-!
Shallow embedding of `src/shapley_calculator.py` (class `ShapleyCalculator`):
the exact permutation-enumeration Shapley solver `calculate_values` and the
linear-time approximate solver `calculate_values_simplified`, together with
spec-side definitions (the axiomatic Shapley formula and the congestion
formula) used for refinement statements.

Buyers are modelled generically (Python dict keys; addresses in practice),
items as `ℕ`, money as `ℚ` (exact arithmetic; the spec's "within floating
tolerance" becomes exact equality).  A Python dict is modelled as an
association list in insertion order with distinct keys; `dict.get(k, 0)`
becomes `dget`.
-/

set_option linter.unusedSectionVars false

namespace ShapleyCoord

variable {α : Type} [DecidableEq α]

/-- `d.get(k, 0)` on an association list with rational values. -/
def dget : List (α × ℚ) → α → ℚ
  | [], _ => 0
  | (a, v) :: rest, k => if k = a then v else dget rest k

/-- `buyers_interests[buyer]` (total: `[]` when the key is absent, which the
algorithm never exercises since it only looks up its own keys). -/
def interestsOf : List (α × List ℕ) → α → List ℕ
  | [], _ => []
  | (a, its) :: rest, b => if b = a then its else interestsOf rest b

/-- `buyers = list(buyers_interests.keys())`. -/
def keys (bi : List (α × List ℕ)) : List α := bi.map Prod.fst

/-- `unique_items`: the union of all demanded items. -/
def uniqueItems (bi : List (α × List ℕ)) : Finset ℕ :=
  ((bi.map Prod.snd).flatten).toFinset

/-- The default item-value table
`{item_id: bundle_price / len(unique_items) for item_id in unique_items}`. -/
def defaultTable (price : ℚ) (bi : List (α × List ℕ)) : List (ℕ × ℚ) :=
  (((bi.map Prod.snd).flatten).dedup).map fun it =>
    (it, price / ((uniqueItems bi).card : ℚ))

/-- `sum(item_values.get(item, 0) for item in s)` for a set `s` of items. -/
def setVal (iv : List (ℕ × ℚ)) (s : Finset ℕ) : ℚ := ∑ it in s, dget iv it

/-- `for item in items: current_items.add(item)`. -/
def addItems (s : Finset ℕ) : List ℕ → Finset ℕ
  | [] => s
  | it :: rest => addItems (insert it s) rest

/-- Pointwise update of the `shapley_values` dict viewed as a function. -/
def upd (f : α → ℚ) (b : α) (x : ℚ) : α → ℚ :=
  fun a => if a = b then x else f a

/-- The inner loop of `calculate_values` over one permutation `perm`:
running item set `cur`, accumulator `acc`; each buyer receives
`(new_value - prev_value) / N` where `N = len(permutations)`. -/
def permWalk (bi : List (α × List ℕ)) (iv : List (ℕ × ℚ)) (N : ℕ) :
    List α → Finset ℕ → (α → ℚ) → (α → ℚ)
  | [], _, acc => acc
  | b :: rest, cur, acc =>
    let prevVal := setVal iv cur
    let cur2 := addItems cur (interestsOf bi b)
    let newVal := setVal iv cur2
    permWalk bi iv N rest cur2 (upd acc b (acc b + (newVal - prevVal) / (N : ℚ)))

/-- The outer loop of `calculate_values` over the list of permutations. -/
def permLoop (bi : List (α × List ℕ)) (iv : List (ℕ × ℚ)) (N : ℕ) :
    List (List α) → (α → ℚ) → (α → ℚ)
  | [], acc => acc
  | p :: ps, acc => permLoop bi iv N ps (permWalk bi iv N p ∅ acc)

/-- Raw (pre-normalization) accumulated values, generalized over the list of
enumerated orderings `ps` (the code instantiates `ps` with
`list(itertools.permutations(buyers))`). -/
def rawShapleyW (bi : List (α × List ℕ)) (iv : List (ℕ × ℚ))
    (ps : List (List α)) : α → ℚ :=
  permLoop bi iv ps.length ps fun _ => 0

/-- Raw (pre-normalization) Shapley accumulation of `calculate_values`. -/
def rawShapley (bi : List (α × List ℕ)) (iv : List (ℕ × ℚ)) : α → ℚ :=
  rawShapleyW bi iv (keys bi).permutations'

/-- The final normalization step shared by both solvers:
`total = sum(values)`; if `total > 0` rescale by `price / total`,
otherwise leave the raw values untouched. -/
def normalizeVals (price : ℚ) (buyers : List α) (vals : α → ℚ) : α → ℚ :=
  let total := (buyers.map vals).sum
  if total > 0 then fun b => vals b / total * price else vals

/-- The tail of `calculate_values` after the item-value table is fixed. -/
def exactCore (price : ℚ) (bi : List (α × List ℕ)) (iv : List (ℕ × ℚ)) :
    List (α × ℚ) :=
  (keys bi).map fun b => (b, normalizeVals price (keys bi) (rawShapley bi iv) b)

/-- `exactCore` generalized over the enumerated list of orderings. -/
def exactCoreW (price : ℚ) (bi : List (α × List ℕ)) (iv : List (ℕ × ℚ))
    (ps : List (List α)) : List (α × ℚ) :=
  (keys bi).map fun b => (b, normalizeVals price (keys bi) (rawShapleyW bi iv ps) b)

/-- `ShapleyCalculator.calculate_values(buyers_interests, item_values)` with
`price = self.bundle_price`; `none` models the `item_values=None` default. -/
def calculate_values (price : ℚ) (bi : List (α × List ℕ))
    (iv : Option (List (ℕ × ℚ))) : List (α × ℚ) :=
  if bi = [] then []
  else exactCore price bi (iv.getD (defaultTable price bi))

/-- Guarded division: evaluating `price / d` with a division-by-zero check,
as the fallible embedding of Python's `/`. -/
def guardedDiv (price : ℚ) (d : ℕ) : Option ℚ :=
  if d = 0 then none else some (price / d)

/-- Guarded construction of the default table: the division
`bundle_price / len(unique_items)` is evaluated once per item of
`unique_items` (a comprehension body runs once per element). -/
def buildDefaultTable (price : ℚ) (d : ℕ) : List ℕ → Option (List (ℕ × ℚ))
  | [] => some []
  | it :: rest =>
    match guardedDiv price d, buildDefaultTable price d rest with
    | some v, some t => some ((it, v) :: t)
    | _, _ => none

/-- Guarded embedding of `calculate_values`: `none` signals a Python runtime
error (division by zero) rather than a returned share mapping. -/
def calculate_valuesG (price : ℚ) (bi : List (α × List ℕ))
    (iv : Option (List (ℕ × ℚ))) : Option (List (α × ℚ)) :=
  if bi = [] then some []
  else
    match iv with
    | some t => some (exactCore price bi t)
    | none =>
      match buildDefaultTable price (uniqueItems bi).card (((bi.map Prod.snd).flatten).dedup) with
      | none => none
      | some t => some (exactCore price bi t)

/-- `item_interest_count[item]`: total number of occurrences of `item`
across all buyers' interest lists (duplicates inside one list counted). -/
def interestCount (bi : List (α × List ℕ)) (it : ℕ) : ℕ :=
  ((bi.map Prod.snd).flatten).count it

/-- `item_values[item] = 1.0 / count if count > 0 else 0` of the
simplified solver. -/
def itemValSimpl (bi : List (α × List ℕ)) (it : ℕ) : ℚ :=
  if 0 < interestCount bi it then 1 / (interestCount bi it : ℚ) else 0

/-- `buyer_values[buyer]`: raw score of one buyer in the simplified solver. -/
def rawSimpl (bi : List (α × List ℕ)) (b : α) : ℚ :=
  ((interestsOf bi b).map (itemValSimpl bi)).sum

/-- `ShapleyCalculator.calculate_values_simplified(buyers_interests)`. -/
def calculate_values_simplified (price : ℚ) (bi : List (α × List ℕ)) :
    List (α × ℚ) :=
  (keys bi).map fun b => (b, normalizeVals price (keys bi) (rawSimpl bi) b)

/-! ### Spec-side definitions (from the spec's words, for refinement claims) -/

/-- Union of the items demanded by the members of a coalition `S`
(each item counted once). -/
def coalitionItems (bi : List (α × List ℕ)) (S : Finset α) : Finset ℕ :=
  S.biUnion fun b => (interestsOf bi b).toFinset

/-- Spec: characteristic function `v(S)` = sum of table values over the
union of items demanded by any buyer of `S`. -/
def vCoalition (bi : List (α × List ℕ)) (iv : List (ℕ × ℚ)) (S : Finset α) : ℚ :=
  setVal iv (coalitionItems bi S)

/-- The buyers strictly preceding `b` in an ordering. -/
def predIn : List α → α → List α
  | [], _ => []
  | x :: rest, b => if x = b then [] else x :: predIn rest b

/-- Spec: the axiomatic Shapley formula
`φ_i = (1/n!) · Σ_{orderings π} [ v(Pred_π(i) ∪ {i}) − v(Pred_π(i)) ]`,
the orderings being the `n!` permutations of the buyer list. -/
def shapleySpec (bi : List (α × List ℕ)) (iv : List (ℕ × ℚ)) (b : α) : ℚ :=
  (1 / ((Nat.factorial (keys bi).length : ℚ))) *
    (((keys bi).permutations).map fun p =>
      vCoalition bi iv (insert b (predIn p b).toFinset) -
        vCoalition bi iv (predIn p b).toFinset).sum

/-- Spec: congestion of an item = number of distinct buyers demanding it. -/
def congestion (bi : List (α × List ℕ)) (it : ℕ) : ℕ :=
  (bi.filter fun pr => it ∈ pr.2).length

/-- Spec: a buyer's raw score = Σ over their demanded items of
`1 / congestion(item)`. -/
def scoreSpec (bi : List (α × List ℕ)) (b : α) : ℚ :=
  ((interestsOf bi b).map fun it => 1 / (congestion bi it : ℚ)).sum

/-- Per-buyer accumulated contribution of a single permutation walk
(specification of `permWalk`'s effect on one buyer). -/
def contribFn (bi : List (α × List ℕ)) (iv : List (ℕ × ℚ)) :
    List α → Finset ℕ → α → ℚ
  | [], _, _ => 0
  | x :: rest, cur, b =>
    (if b = x then
        setVal iv (addItems cur (interestsOf bi x)) - setVal iv cur
      else 0)
      + contribFn bi iv rest (addItems cur (interestsOf bi x)) b

/-- Accumulate all demands of a list of buyers into a running item set. -/
def allAdd (bi : List (α × List ℕ)) : List α → Finset ℕ → Finset ℕ
  | [], cur => cur
  | x :: rest, cur => allAdd bi rest (addItems cur (interestsOf bi x))

/-- The transposition of two buyer identifiers, used to compare the walks of
a permutation and of its image under swapping two symmetric buyers. -/
def swapFn (i j : α) : α → α :=
  fun x => if x = i then j else if x = j then i else x

/-! ### Basic lemmas about the embedded operations -/

lemma addItems_eq (s : Finset ℕ) (l : List ℕ) : addItems s l = s ∪ l.toFinset := by
  induction l generalizing s with
  | nil => simp [addItems]
  | cons it rest ih =>
    rw [addItems, ih, List.toFinset_cons, Finset.insert_union, Finset.union_insert]

lemma dget_nonneg {β : Type} [DecidableEq β] {iv : List (β × ℚ)}
    (h : ∀ pr ∈ iv, 0 ≤ pr.2) (k : β) : 0 ≤ dget iv k := by
  induction iv with
  | nil => simp [dget]
  | cons pr rest ih =>
    obtain ⟨a, v⟩ := pr
    rw [dget]
    by_cases hk : k = a
    · simpa [hk] using h (a, v) (List.mem_cons_self _ _)
    · simp only [hk, if_false]
      exact ih fun q hq => h q (List.mem_cons_of_mem _ hq)

lemma dget_map_fun (l : List α) (f : α → ℚ) (k : α) :
    dget (l.map fun b => (b, f b)) k = if k ∈ l then f k else 0 := by
  induction l with
  | nil => simp [dget]
  | cons x rest ih =>
    by_cases hkx : k = x
    · subst hkx; simp [dget]
    · simp [dget, hkx, ih]

lemma dget_map_const (l : List ℕ) (c : ℚ) (k : ℕ) :
    dget (l.map fun it => (it, c)) k = if k ∈ l then c else 0 :=
  dget_map_fun l (fun _ => c) k

lemma mem_keys {bi : List (α × List ℕ)} {b : α} :
    b ∈ keys bi ↔ ∃ its, (b, its) ∈ bi := by
  constructor
  · intro h
    obtain ⟨pr, hpr, rfl⟩ := List.mem_map.mp h
    exact ⟨pr.2, hpr⟩
  · rintro ⟨its, h⟩
    exact List.mem_map.mpr ⟨(b, its), h, rfl⟩

lemma interestsOf_mem {bi : List (α × List ℕ)} (hn : (keys bi).Nodup)
    {b : α} {its : List ℕ} (h : (b, its) ∈ bi) : interestsOf bi b = its := by
  induction bi with
  | nil => cases h
  | cons pr rest ih =>
    obtain ⟨a, l⟩ := pr
    simp only [keys, List.map_cons, List.nodup_cons] at hn
    rcases List.mem_cons.mp h with h1 | h1
    · obtain ⟨rfl, rfl⟩ := Prod.mk.injEq .. ▸ h1
      simp [interestsOf]
    · have hba : b ≠ a := by
        rintro rfl
        exact hn.1 (List.mem_map_of_mem Prod.fst h1)
      rw [interestsOf, if_neg hba]
      exact ih hn.2 h1

lemma interestsOf_of_not_mem {bi : List (α × List ℕ)} {b : α}
    (h : b ∉ keys bi) : interestsOf bi b = [] := by
  induction bi with
  | nil => rfl
  | cons pr rest ih =>
    obtain ⟨a, l⟩ := pr
    simp only [keys, List.map_cons, List.mem_cons, not_or] at h
    rw [interestsOf, if_neg h.1]
    exact ih h.2

lemma mem_uniqueItems {bi : List (α × List ℕ)} {x : ℕ} :
    x ∈ uniqueItems bi ↔ ∃ pr ∈ bi, x ∈ pr.2 := by
  simp only [uniqueItems, List.mem_toFinset, List.mem_flatten, List.mem_map]
  constructor
  · rintro ⟨l, ⟨pr, hpr, rfl⟩, hx⟩
    exact ⟨pr, hpr, hx⟩
  · rintro ⟨pr, hpr, hx⟩
    exact ⟨pr.2, ⟨pr, hpr, rfl⟩, hx⟩

/-! ### The permutation walk computes per-buyer contributions -/

lemma permWalk_apply (bi : List (α × List ℕ)) (iv : List (ℕ × ℚ)) (N : ℕ)
    (p : List α) (cur : Finset ℕ) (acc : α → ℚ) (b : α) :
    permWalk bi iv N p cur acc b = acc b + contribFn bi iv p cur b / (N : ℚ) := by
  induction p generalizing cur acc with
  | nil => simp [permWalk, contribFn]
  | cons x rest ih =>
    rw [permWalk, contribFn, ih]
    by_cases hbx : b = x
    · subst hbx
      simp only [upd, eq_self_iff_true, if_true, add_div]
      ring
    · simp only [upd, if_neg hbx, if_neg hbx, zero_add]

lemma permLoop_apply (bi : List (α × List ℕ)) (iv : List (ℕ × ℚ)) (N : ℕ)
    (ps : List (List α)) (acc : α → ℚ) (b : α) :
    permLoop bi iv N ps acc b
      = acc b + ((ps.map fun p => contribFn bi iv p ∅ b).sum) / (N : ℚ) := by
  induction ps generalizing acc with
  | nil => simp [permLoop]
  | cons p ps ih =>
    rw [permLoop, ih, permWalk_apply]
    rw [List.map_cons, List.sum_cons, add_div]
    ring

lemma rawShapleyW_eq (bi : List (α × List ℕ)) (iv : List (ℕ × ℚ))
    (ps : List (List α)) (b : α) :
    rawShapleyW bi iv ps b
      = ((ps.map fun p => contribFn bi iv p ∅ b).sum) / (ps.length : ℚ) := by
  rw [rawShapleyW, permLoop_apply, zero_add]

lemma contribFn_of_not_mem {b : α} {p : List α} (h : b ∉ p)
    (bi : List (α × List ℕ)) (iv : List (ℕ × ℚ)) (cur : Finset ℕ) :
    contribFn bi iv p cur b = 0 := by
  induction p generalizing cur with
  | nil => rfl
  | cons x rest ih =>
    simp only [List.mem_cons, not_or] at h
    rw [contribFn, if_neg h.1, ih h.2, zero_add]

lemma contribFn_of_empty {bi : List (α × List ℕ)} {b : α}
    (h : interestsOf bi b = []) (iv : List (ℕ × ℚ)) (p : List α) (cur : Finset ℕ) :
    contribFn bi iv p cur b = 0 := by
  induction p generalizing cur with
  | nil => rfl
  | cons x rest ih =>
    rw [contribFn, ih]
    by_cases hbx : b = x
    · subst hbx
      rw [h]
      simp [addItems]
    · rw [if_neg hbx, add_zero]

lemma sum_map_div (l : List α) (f : α → ℚ) (c : ℚ) :
    (l.map fun x => f x / c).sum = (l.map f).sum / c := by
  simp only [div_eq_mul_inv]
  rw [List.sum_map_mul_right]

lemma sum_map_const_q (l : List α) (c : ℚ) :
    (l.map fun _ => c).sum = (l.length : ℚ) * c := by
  induction l with
  | nil => simp
  | cons x rest ih =>
    rw [List.map_cons, List.sum_cons, ih, List.length_cons]
    push_cast
    ring

/-- A buyer's contribution in one permutation walk is the marginal value of
joining the coalition of their predecessors. -/
lemma contribFn_pred {p : List α} {b : α} (bi : List (α × List ℕ))
    (iv : List (ℕ × ℚ)) :
    ∀ cur : Finset ℕ, p.Nodup → b ∈ p →
      contribFn bi iv p cur b
        = setVal iv (cur ∪ coalitionItems bi (insert b (predIn p b).toFinset))
          - setVal iv (cur ∪ coalitionItems bi (predIn p b).toFinset) := by
  induction p with
  | nil => intro cur _ hb; cases hb
  | cons x rest ih =>
    intro cur hnd hb
    rw [List.nodup_cons] at hnd
    by_cases hbx : b = x
    · subst hbx
      rw [contribFn, if_pos rfl, contribFn_of_not_mem hnd.1, add_zero, predIn,
        if_pos rfl]
      simp only [List.toFinset_nil, insert_emptyc_eq, coalitionItems,
        Finset.singleton_biUnion, Finset.biUnion_empty, Finset.union_empty,
        addItems_eq]
    · have hxb : x ≠ b := fun h => hbx h.symm
      have hbr : b ∈ rest := by
        rcases List.mem_cons.mp hb with h | h
        · exact absurd h hbx
        · exact h
      rw [contribFn, if_neg hbx, zero_add, ih _ hnd.2 hbr, predIn, if_neg hxb,
        addItems_eq, List.toFinset_cons, Finset.Insert.comm b x]
      simp only [coalitionItems, Finset.biUnion_insert]
      rw [Finset.union_assoc, Finset.union_assoc]

/-- Telescoping: the contributions of one permutation walk sum to the value
of everything the walk accumulated minus the value of the start. -/
lemma sum_contrib_telescope (bi : List (α × List ℕ)) (iv : List (ℕ × ℚ)) :
    ∀ (p : List α) (cur : Finset ℕ), p.Nodup →
      ((p.map fun b => contribFn bi iv p cur b).sum)
        = setVal iv (allAdd bi p cur) - setVal iv cur := by
  intro p
  induction p with
  | nil => intro cur _; simp [allAdd]
  | cons x rest ih =>
    intro cur hnd
    rw [List.nodup_cons] at hnd
    rw [List.map_cons, List.sum_cons]
    have h1 : contribFn bi iv (x :: rest) cur x
        = setVal iv (addItems cur (interestsOf bi x)) - setVal iv cur := by
      rw [contribFn, if_pos rfl, contribFn_of_not_mem hnd.1, add_zero]
    have h2 : (rest.map fun b => contribFn bi iv (x :: rest) cur b)
        = rest.map fun b =>
            contribFn bi iv rest (addItems cur (interestsOf bi x)) b := by
      apply List.map_congr_left
      intro b hbmem
      have hbx : b ≠ x := fun h => hnd.1 (h ▸ hbmem)
      rw [contribFn, if_neg hbx, zero_add]
    rw [h1, h2, ih _ hnd.2, allAdd]
    ring

lemma allAdd_eq (bi : List (α × List ℕ)) :
    ∀ (p : List α) (cur : Finset ℕ),
      allAdd bi p cur = cur ∪ coalitionItems bi p.toFinset := by
  intro p
  induction p with
  | nil =>
    intro cur
    simp [allAdd, coalitionItems]
  | cons x rest ih =>
    intro cur
    rw [allAdd, ih, addItems_eq, List.toFinset_cons]
    simp only [coalitionItems, Finset.biUnion_insert]
    rw [Finset.union_assoc]

lemma coalitionItems_keys {bi : List (α × List ℕ)} (hn : (keys bi).Nodup) :
    coalitionItems bi (keys bi).toFinset = uniqueItems bi := by
  ext x
  simp only [coalitionItems, Finset.mem_biUnion, List.mem_toFinset,
    mem_uniqueItems]
  constructor
  · rintro ⟨b, hb, hx⟩
    obtain ⟨its, hits⟩ := mem_keys.mp hb
    rw [interestsOf_mem hn hits] at hx
    exact ⟨(b, its), hits, hx⟩
  · rintro ⟨pr, hpr, hx⟩
    refine ⟨pr.1, mem_keys.mpr ⟨pr.2, hpr⟩, ?_⟩
    rw [interestsOf_mem hn (show (pr.1, pr.2) ∈ bi from Prod.mk.eta ▸ hpr)]
    exact hx

lemma sum_map_add_q {β : Type} (l : List β) (f g : β → ℚ) :
    (l.map fun x => f x + g x).sum = (l.map f).sum + (l.map g).sum := by
  induction l with
  | nil => simp
  | cons x rest ih =>
    simp only [List.map_cons, List.sum_cons, ih]
    ring

lemma sum_map_swap {β γ : Type} (l1 : List β) (l2 : List γ) (f : β → γ → ℚ) :
    (l1.map fun b => (l2.map fun c => f b c).sum).sum
      = (l2.map fun c => (l1.map fun b => f b c).sum).sum := by
  induction l1 with
  | nil => simp [sum_map_const_q]
  | cons b rest ih =>
    simp only [List.map_cons, List.sum_cons, ih, sum_map_add_q]

lemma length_permutations_alt (l : List α) :
    l.permutations'.length = Nat.factorial l.length := by
  rw [← (List.permutations_perm_permutations' l).length_eq,
    List.length_permutations]

/-- The raw accumulation of `calculate_values` coincides with the axiomatic
Shapley formula. -/
lemma rawShapley_eq_phi {bi : List (α × List ℕ)} (hn : (keys bi).Nodup)
    (iv : List (ℕ × ℚ)) {b : α} (hb : b ∈ keys bi) :
    rawShapley bi iv b = shapleySpec bi iv b := by
  rw [rawShapley, rawShapleyW_eq, shapleySpec, length_permutations_alt]
  have hG : ∀ p, List.Perm p (keys bi) →
      contribFn bi iv p ∅ b
        = vCoalition bi iv (insert b (predIn p b).toFinset)
          - vCoalition bi iv (predIn p b).toFinset := by
    intro p hperm
    have hpn : p.Nodup := hperm.nodup_iff.mpr hn
    have hbp : b ∈ p := hperm.mem_iff.mpr hb
    rw [contribFn_pred bi iv ∅ hpn hbp]
    simp [vCoalition]
  have hmap : ((keys bi).permutations'.map fun p => contribFn bi iv p ∅ b)
      = (keys bi).permutations'.map fun p =>
          vCoalition bi iv (insert b (predIn p b).toFinset)
            - vCoalition bi iv (predIn p b).toFinset :=
    List.map_congr_left fun p hp => hG p (List.mem_permutations'.mp hp)
  have hsums : ((keys bi).permutations.map fun p =>
        vCoalition bi iv (insert b (predIn p b).toFinset)
          - vCoalition bi iv (predIn p b).toFinset).sum
      = ((keys bi).permutations'.map fun p =>
          vCoalition bi iv (insert b (predIn p b).toFinset)
            - vCoalition bi iv (predIn p b).toFinset).sum :=
    ((List.permutations_perm_permutations' (keys bi)).map _).sum_eq
  rw [hmap, hsums]
  ring

/-- The raw accumulations over all buyers sum to the value of the union of
all demanded items (efficiency of the raw Shapley values). -/
lemma sum_rawShapley {bi : List (α × List ℕ)} (hn : (keys bi).Nodup)
    (iv : List (ℕ × ℚ)) :
    ((keys bi).map (rawShapley bi iv)).sum = setVal iv (uniqueItems bi) := by
  have hN : ((keys bi).permutations'.length : ℚ) ≠ 0 := by
    rw [length_permutations_alt]
    exact_mod_cast (Nat.factorial_pos _).ne'
  have h1 : ((keys bi).map (rawShapley bi iv)).sum
      = ((keys bi).map fun b =>
          (((keys bi).permutations'.map fun p => contribFn bi iv p ∅ b).sum)
            / ((keys bi).permutations'.length : ℚ)).sum := by
    apply congrArg
    apply List.map_congr_left
    intro b _
    rw [rawShapley, rawShapleyW_eq]
  rw [h1, sum_map_div, sum_map_swap]
  have h2 : ((keys bi).permutations'.map fun p =>
        ((keys bi).map fun b => contribFn bi iv p ∅ b).sum)
      = (keys bi).permutations'.map fun _ => setVal iv (uniqueItems bi) := by
    apply List.map_congr_left
    intro p hp
    have hperm : List.Perm p (keys bi) := List.mem_permutations'.mp hp
    have hpn : p.Nodup := hperm.nodup_iff.mpr hn
    have hsum : ((keys bi).map fun b => contribFn bi iv p ∅ b).sum
        = (p.map fun b => contribFn bi iv p ∅ b).sum :=
      (hperm.symm.map fun b => contribFn bi iv p ∅ b).sum_eq
    have htf : p.toFinset = (keys bi).toFinset := by
      ext x
      simp only [List.mem_toFinset]
      exact hperm.mem_iff
    rw [hsum, sum_contrib_telescope bi iv p ∅ hpn, allAdd_eq, Finset.empty_union,
      htf, coalitionItems_keys hn]
    simp [setVal]
  rw [h2, sum_map_const_q]
  exact mul_div_cancel_left₀ _ hN

lemma dget_defaultTable (price : ℚ) (bi : List (α × List ℕ)) (it : ℕ) :
    dget (defaultTable price bi) it
      = if it ∈ uniqueItems bi then price / ((uniqueItems bi).card : ℚ)
        else 0 := by
  rw [defaultTable, dget_map_const]
  by_cases h : it ∈ (bi.map Prod.snd).flatten
  · rw [if_pos (List.mem_dedup.mpr h),
      if_pos (show it ∈ uniqueItems bi from List.mem_toFinset.mpr h)]
  · rw [if_neg fun hc => h (List.mem_dedup.mp hc),
      if_neg fun hc : it ∈ uniqueItems bi => h (List.mem_toFinset.mp hc)]

lemma setVal_default_uniqueItems (price : ℚ) {bi : List (α × List ℕ)}
    (hne : (uniqueItems bi).Nonempty) :
    setVal (defaultTable price bi) (uniqueItems bi) = price := by
  have hc : ((uniqueItems bi).card : ℚ) ≠ 0 := by
    exact_mod_cast (Finset.card_pos.mpr hne).ne'
  rw [setVal]
  rw [Finset.sum_congr rfl fun it hit => by
    rw [dget_defaultTable, if_pos hit]]
  rw [Finset.sum_const, nsmul_eq_mul]
  field_simp

lemma defaultTable_nonneg {price : ℚ} (hp : 0 ≤ price)
    (bi : List (α × List ℕ)) :
    ∀ pr ∈ defaultTable price bi, 0 ≤ pr.2 := by
  intro pr hpr
  rw [defaultTable] at hpr
  obtain ⟨it, _, rfl⟩ := List.mem_map.mp hpr
  exact div_nonneg hp (Nat.cast_nonneg _)

/-! ### Lemmas about the simplified solver -/

/-- With duplicate-free interest lists, the occurrence count of an item is
the number of distinct buyers demanding it. -/
lemma interestCount_eq_congestion {bi : List (α × List ℕ)}
    (h : ∀ pr ∈ bi, pr.2.Nodup) (it : ℕ) :
    interestCount bi it = congestion bi it := by
  induction bi with
  | nil => rfl
  | cons pr rest ih =>
    have ihh := ih fun q hq => h q (List.mem_cons_of_mem _ hq)
    rw [interestCount, congestion] at ihh
    rw [interestCount, List.map_cons, List.flatten_cons, List.count_append,
      congestion, List.filter_cons]
    by_cases hmem : it ∈ pr.2
    · rw [List.count_eq_one_of_mem (h pr (List.mem_cons_self _ _)) hmem, ihh]
      simp [List.filter_cons, hmem, Nat.add_comm]
    · rw [List.count_eq_zero.mpr hmem, ihh]
      simp [List.filter_cons, hmem]

lemma itemValSimpl_of_mem {bi : List (α × List ℕ)} {it : ℕ}
    (h : 0 < interestCount bi it) :
    itemValSimpl bi it = 1 / (interestCount bi it : ℚ) := by
  rw [itemValSimpl, if_pos h]

/-- The raw scores of the simplified solver sum to the number of distinct
demanded items. -/
lemma sum_rawSimpl {bi : List (α × List ℕ)} (hn : (keys bi).Nodup) :
    ((keys bi).map (rawSimpl bi)).sum = ((uniqueItems bi).card : ℚ) := by
  have h1 : (keys bi).map (rawSimpl bi)
      = bi.map fun pr => (pr.2.map (itemValSimpl bi)).sum := by
    rw [keys, List.map_map]
    apply List.map_congr_left
    intro pr hpr
    simp only [Function.comp]
    rw [rawSimpl,
      interestsOf_mem hn (show (pr.1, pr.2) ∈ bi from Prod.mk.eta ▸ hpr)]
  have h2 : (bi.map fun pr => (pr.2.map (itemValSimpl bi)).sum).sum
      = (((bi.map Prod.snd).flatten).map (itemValSimpl bi)).sum := by
    rw [List.map_flatten, List.sum_flatten, List.map_map, List.map_map]
    rfl
  rw [h1, h2, Finset.sum_list_map_count]
  have h3 : ∀ m ∈ ((bi.map Prod.snd).flatten).toFinset,
      ((bi.map Prod.snd).flatten).count m • itemValSimpl bi m = (1 : ℚ) := by
    intro m hm
    have hcount : 0 < interestCount bi m := by
      rw [interestCount]
      exact List.count_pos_iff.mpr (List.mem_toFinset.mp hm)
    have hc0 : ((interestCount bi m : ℕ) : ℚ) ≠ 0 := by
      exact_mod_cast hcount.ne'
    rw [itemValSimpl_of_mem hcount]
    show (interestCount bi m) • ((1 : ℚ) / (interestCount bi m : ℚ)) = 1
    rw [nsmul_eq_mul, mul_one_div, div_self hc0]
  rw [Finset.sum_congr rfl h3, Finset.sum_const, nsmul_eq_mul, mul_one]
  rfl

/-! ### Non-negativity -/

lemma setVal_mono {iv : List (ℕ × ℚ)} (hiv : ∀ pr ∈ iv, 0 ≤ pr.2)
    {s t : Finset ℕ} (hst : s ⊆ t) : setVal iv s ≤ setVal iv t := by
  simp only [setVal]
  exact Finset.sum_le_sum_of_subset_of_nonneg hst fun k _ _ => dget_nonneg hiv k

lemma contribFn_nonneg {iv : List (ℕ × ℚ)} (hiv : ∀ pr ∈ iv, 0 ≤ pr.2)
    (bi : List (α × List ℕ)) (p : List α) (b : α) :
    ∀ cur, 0 ≤ contribFn bi iv p cur b := by
  induction p with
  | nil => intro cur; exact le_refl 0
  | cons x rest ih =>
    intro cur
    rw [contribFn]
    apply add_nonneg _ (ih _)
    by_cases hbx : b = x
    · rw [if_pos hbx]
      have hsub : cur ⊆ addItems cur (interestsOf bi x) := by
        rw [addItems_eq]
        exact Finset.subset_union_left
      exact sub_nonneg.mpr (setVal_mono hiv hsub)
    · rw [if_neg hbx]

lemma rawShapleyW_nonneg {iv : List (ℕ × ℚ)} (hiv : ∀ pr ∈ iv, 0 ≤ pr.2)
    (bi : List (α × List ℕ)) (ps : List (List α)) (b : α) :
    0 ≤ rawShapleyW bi iv ps b := by
  rw [rawShapleyW_eq]
  apply div_nonneg _ (Nat.cast_nonneg _)
  apply List.sum_nonneg
  intro x hx
  obtain ⟨p, _, rfl⟩ := List.mem_map.mp hx
  exact contribFn_nonneg hiv bi p b ∅

lemma rawSimpl_nonneg (bi : List (α × List ℕ)) (b : α) : 0 ≤ rawSimpl bi b := by
  rw [rawSimpl]
  apply List.sum_nonneg
  intro x hx
  obtain ⟨it, _, rfl⟩ := List.mem_map.mp hx
  rw [itemValSimpl]
  split_ifs with h
  · positivity
  · exact le_refl 0

lemma normalizeVals_nonneg {price : ℚ} (hp : 0 ≤ price) (buyers : List α)
    {vals : α → ℚ} (hv : ∀ b, 0 ≤ vals b) (b : α) :
    0 ≤ normalizeVals price buyers vals b := by
  rw [normalizeVals]
  split_ifs with h
  · exact mul_nonneg (div_nonneg (hv b) (le_of_lt h)) hp
  · exact hv b

lemma normalizeVals_zero (price : ℚ) (buyers : List α)
    {vals : α → ℚ} {b : α} (hb : vals b = 0) :
    normalizeVals price buyers vals b = 0 := by
  rw [normalizeVals]
  split_ifs with h
  · show vals b / _ * price = 0
    rw [hb, zero_div, zero_mul]
  · exact hb

/-- Looking up a buyer in the returned association list. -/
lemma dget_exactCore (price : ℚ) (bi : List (α × List ℕ))
    (iv : List (ℕ × ℚ)) (b : α) :
    dget (exactCore price bi iv) b
      = if b ∈ keys bi
        then normalizeVals price (keys bi) (rawShapley bi iv) b else 0 :=
  dget_map_fun (keys bi) _ b

lemma dget_simplified (price : ℚ) (bi : List (α × List ℕ)) (b : α) :
    dget (calculate_values_simplified price bi) b
      = if b ∈ keys bi
        then normalizeVals price (keys bi) (rawSimpl bi) b else 0 :=
  dget_map_fun (keys bi) _ b

/-! ### Symmetry: swapping two buyers with the same demand set -/

lemma swapFn_left (i j : α) : swapFn i j i = j := by
  rw [swapFn]
  simp

lemma swapFn_right {i j : α} (hij : i ≠ j) : swapFn i j j = i := by
  rw [swapFn, if_neg (Ne.symm hij)]
  simp

lemma swapFn_other {i j x : α} (hxi : x ≠ i) (hxj : x ≠ j) : swapFn i j x = x := by
  rw [swapFn, if_neg hxi, if_neg hxj]

lemma swapFn_swapFn (i j x : α) : swapFn i j (swapFn i j x) = x := by
  by_cases hxi : x = i
  · subst hxi
    by_cases hij : x = j
    · subst hij
      simp [swapFn]
    · rw [swapFn_left, swapFn_right hij]
  · by_cases hxj : x = j
    · subst hxj
      rw [swapFn_right fun h => hxi h.symm, swapFn_left]
    · rw [swapFn_other hxi hxj, swapFn_other hxi hxj]

lemma swapFn_injective (i j : α) : Function.Injective (swapFn i j) :=
  Function.Involutive.injective (swapFn_swapFn i j)

/-- Applying the transposition elementwise to a duplicate-free list that
contains both endpoints permutes the list. -/
lemma map_swapFn_perm {l : List α} (hn : l.Nodup) {i j : α}
    (hi : i ∈ l) (hj : j ∈ l) :
    List.Perm (l.map (swapFn i j)) l := by
  by_cases hij : i = j
  · subst hij
    have hid : l.map (swapFn i i) = l.map id := by
      apply List.map_congr_left
      intro x _
      by_cases h : x = i
      · subst h
        rw [swapFn_left]
        rfl
      · rw [swapFn_other h h]
        rfl
    rw [hid, List.map_id]
  · rw [List.perm_iff_count]
    intro a
    have key : ∀ y : α, (l.map (swapFn i j)).count y = l.count (swapFn i j y) := by
      intro y
      have h1 := List.count_map_of_injective l (swapFn i j) (swapFn_injective i j)
        (swapFn i j y)
      rw [swapFn_swapFn] at h1
      exact h1
    rw [key a]
    by_cases hai : a = i
    · subst hai
      rw [swapFn_left, List.count_eq_one_of_mem hn hj,
        List.count_eq_one_of_mem hn hi]
    · by_cases haj : a = j
      · subst haj
        rw [swapFn_right hij, List.count_eq_one_of_mem hn hi,
          List.count_eq_one_of_mem hn hj]
      · rw [swapFn_other hai haj]

/-- The contribution of buyer `i` in a walk equals the contribution of
buyer `j` in the swapped walk, when both demand the same set of items. -/
lemma contribFn_swap {bi : List (α × List ℕ)} {i j : α} (hij : i ≠ j)
    (hD : (interestsOf bi i).toFinset = (interestsOf bi j).toFinset)
    (iv : List (ℕ × ℚ)) :
    ∀ (p : List α) (cur : Finset ℕ),
      contribFn bi iv p cur i = contribFn bi iv (p.map (swapFn i j)) cur j := by
  intro p
  induction p with
  | nil => intro cur; rfl
  | cons x rest ih =>
    intro cur
    rw [List.map_cons, contribFn, contribFn]
    by_cases hxi : x = i
    · subst hxi
      rw [swapFn_left]
      have haddeq : addItems cur (interestsOf bi x)
          = addItems cur (interestsOf bi j) := by
        rw [addItems_eq, addItems_eq, hD]
      rw [if_pos rfl, if_pos rfl, haddeq, ih]
    · by_cases hxj : x = j
      · subst hxj
        rw [swapFn_right hij]
        have haddeq : addItems cur (interestsOf bi x)
            = addItems cur (interestsOf bi i) := by
          rw [addItems_eq, addItems_eq, hD]
        rw [if_neg hij, if_neg (Ne.symm hij), ← haddeq, ih]
      · rw [swapFn_other hxi hxj, if_neg fun h => hxi h.symm,
          if_neg fun h => hxj h.symm, ih]

/-- Two buyers with equal demand sets accumulate equal raw values. -/
lemma rawShapley_swap {bi : List (α × List ℕ)} (hn : (keys bi).Nodup)
    {i j : α} (hij : i ≠ j) (hi : i ∈ keys bi) (hj : j ∈ keys bi)
    (hD : (interestsOf bi i).toFinset = (interestsOf bi j).toFinset)
    (iv : List (ℕ × ℚ)) :
    rawShapley bi iv i = rawShapley bi iv j := by
  rw [rawShapley, rawShapleyW_eq, rawShapleyW_eq]
  congr 1
  have h1 : ((keys bi).permutations'.map fun p => contribFn bi iv p ∅ i)
      = (keys bi).permutations'.map fun p =>
          contribFn bi iv (p.map (swapFn i j)) ∅ j :=
    List.map_congr_left fun p _ => contribFn_swap hij hD iv p ∅
  have h2 : ((keys bi).permutations'.map fun p =>
        contribFn bi iv (p.map (swapFn i j)) ∅ j)
      = (((keys bi).permutations'.map (List.map (swapFn i j))).map
          fun q => contribFn bi iv q ∅ j) := by
    rw [List.map_map]
    apply List.map_congr_left
    intro p _
    rfl
  rw [h1, h2, List.map_permutations']
  have hperm : List.Perm ((keys bi).map (swapFn i j)) (keys bi) :=
    map_swapFn_perm hn hi hj
  exact (hperm.permutations'.map fun q => contribFn bi iv q ∅ j).sum_eq

/-! ### Order invariance -/

lemma interestsOf_perm {bi₁ bi₂ : List (α × List ℕ)} (hn : (keys bi₁).Nodup)
    (hp : List.Perm bi₁ bi₂) (b : α) :
    interestsOf bi₁ b = interestsOf bi₂ b := by
  have hkeys : List.Perm (keys bi₁) (keys bi₂) := hp.map Prod.fst
  have hn2 : (keys bi₂).Nodup := hkeys.nodup_iff.mp hn
  by_cases hb : b ∈ keys bi₁
  · obtain ⟨its, hits⟩ := mem_keys.mp hb
    rw [interestsOf_mem hn hits, interestsOf_mem hn2 (hp.mem_iff.mp hits)]
  · rw [interestsOf_of_not_mem hb,
      interestsOf_of_not_mem fun hc => hb (hkeys.mem_iff.mpr hc)]

lemma uniqueItems_perm {bi₁ bi₂ : List (α × List ℕ)} (hp : List.Perm bi₁ bi₂) :
    uniqueItems bi₁ = uniqueItems bi₂ := by
  ext x
  simp only [mem_uniqueItems]
  constructor
  · rintro ⟨pr, hpr, hx⟩
    exact ⟨pr, hp.mem_iff.mp hpr, hx⟩
  · rintro ⟨pr, hpr, hx⟩
    exact ⟨pr, hp.mem_iff.mpr hpr, hx⟩

lemma contribFn_congr {bi₁ bi₂ : List (α × List ℕ)}
    (h : ∀ b, interestsOf bi₁ b = interestsOf bi₂ b) (iv : List (ℕ × ℚ)) :
    ∀ (p : List α) (cur : Finset ℕ) (b : α),
      contribFn bi₁ iv p cur b = contribFn bi₂ iv p cur b := by
  intro p
  induction p with
  | nil => intro cur b; rfl
  | cons x rest ih =>
    intro cur b
    rw [contribFn, contribFn, h x, ih]

/-- The raw accumulation depends only on the enumerated orderings as a
multiset: shuffling the permutation list does not change it. -/
lemma rawShapleyW_perm (bi : List (α × List ℕ)) (iv : List (ℕ × ℚ))
    {ps₁ ps₂ : List (List α)} (hp : List.Perm ps₁ ps₂) (b : α) :
    rawShapleyW bi iv ps₁ b = rawShapleyW bi iv ps₂ b := by
  rw [rawShapleyW_eq, rawShapleyW_eq, hp.length_eq,
    (hp.map fun p => contribFn bi iv p ∅ b).sum_eq]

lemma setVal_congr {iv₁ iv₂ : List (ℕ × ℚ)}
    (h : ∀ k, dget iv₁ k = dget iv₂ k) (s : Finset ℕ) :
    setVal iv₁ s = setVal iv₂ s := by
  simp only [setVal]
  exact Finset.sum_congr rfl fun k _ => h k

lemma contribFn_iv_congr {iv₁ iv₂ : List (ℕ × ℚ)}
    (h : ∀ k, dget iv₁ k = dget iv₂ k) (bi : List (α × List ℕ)) :
    ∀ (p : List α) (cur : Finset ℕ) (b : α),
      contribFn bi iv₁ p cur b = contribFn bi iv₂ p cur b := by
  intro p
  induction p with
  | nil => intro cur b; rfl
  | cons x rest ih =>
    intro cur b
    rw [contribFn, contribFn, ih, setVal_congr h, setVal_congr h]

/-- The raw accumulation is invariant under reordering of the input
association list and under replacing the table by one with the same
lookups. -/
lemma rawShapley_perm {bi₁ bi₂ : List (α × List ℕ)} (hn : (keys bi₁).Nodup)
    (hp : List.Perm bi₁ bi₂) {iv₁ iv₂ : List (ℕ × ℚ)}
    (hiv : ∀ k, dget iv₁ k = dget iv₂ k) (b : α) :
    rawShapley bi₁ iv₁ b = rawShapley bi₂ iv₂ b := by
  have hkeys : List.Perm (keys bi₁) (keys bi₂) := hp.map Prod.fst
  have hcongr : ∀ (p : List α) (cur : Finset ℕ) (b : α),
      contribFn bi₁ iv₁ p cur b = contribFn bi₂ iv₂ p cur b := fun p cur b => by
    rw [contribFn_congr (interestsOf_perm hn hp) iv₁ p cur b,
      contribFn_iv_congr hiv bi₂ p cur b]
  rw [rawShapley, rawShapley, rawShapleyW_eq, rawShapleyW_eq,
    hkeys.permutations'.length_eq]
  congr 1
  have h1 : ((keys bi₁).permutations'.map fun p => contribFn bi₁ iv₁ p ∅ b)
      = (keys bi₁).permutations'.map fun p => contribFn bi₂ iv₂ p ∅ b :=
    List.map_congr_left fun p _ => hcongr p ∅ b
  rw [h1]
  exact (hkeys.permutations'.map fun p => contribFn bi₂ iv₂ p ∅ b).sum_eq

/-! ### Normalization -/

lemma normalizeVals_pos (price : ℚ) (buyers : List α) (vals : α → ℚ)
    (h : (buyers.map vals).sum > 0) (b : α) :
    normalizeVals price buyers vals b
      = vals b / (buyers.map vals).sum * price := by
  rw [normalizeVals, if_pos h]

lemma normalizeVals_neg (price : ℚ) (buyers : List α) (vals : α → ℚ)
    (h : ¬ (buyers.map vals).sum > 0) (b : α) :
    normalizeVals price buyers vals b = vals b := by
  rw [normalizeVals, if_neg h]

/-- If the raw total is positive, the normalized values sum to the price. -/
lemma sum_normalizeVals_pos (price : ℚ) (buyers : List α) (vals : α → ℚ)
    (h : (buyers.map vals).sum > 0) :
    (buyers.map (normalizeVals price buyers vals)).sum = price := by
  have hmap : buyers.map (normalizeVals price buyers vals)
      = buyers.map fun b => vals b / (buyers.map vals).sum * price :=
    List.map_congr_left fun b _ => normalizeVals_pos price buyers vals h b
  rw [hmap, List.sum_map_mul_right, sum_map_div, div_self (ne_of_gt h), one_mul]

/-- If the raw total equals the price, the normalized values sum to the
price whatever the sign of the total. -/
lemma sum_normalizeVals_eq (price : ℚ) (buyers : List α) (vals : α → ℚ)
    (htot : (buyers.map vals).sum = price) :
    (buyers.map (normalizeVals price buyers vals)).sum = price := by
  by_cases h : (buyers.map vals).sum > 0
  · exact sum_normalizeVals_pos price buyers vals h
  · have hmap : buyers.map (normalizeVals price buyers vals) = buyers.map vals :=
      List.map_congr_left fun b _ => normalizeVals_neg price buyers vals h b
    rw [hmap, htot]

lemma normalizeVals_congr_pt (price : ℚ) (buyers : List α) (vals : α → ℚ)
    {b c : α} (h : vals b = vals c) :
    normalizeVals price buyers vals b = normalizeVals price buyers vals c := by
  rw [normalizeVals]
  split_ifs with hh
  · show vals b / _ * price = vals c / _ * price
    rw [h]
  · exact h

lemma normalizeVals_perm_congr (price : ℚ) {buyers₁ buyers₂ : List α}
    {vals₁ vals₂ : α → ℚ} (hperm : List.Perm buyers₁ buyers₂)
    (hv : ∀ b, vals₁ b = vals₂ b) (b : α) :
    normalizeVals price buyers₁ vals₁ b = normalizeVals price buyers₂ vals₂ b := by
  have hv' : vals₁ = vals₂ := funext hv
  subst hv'
  have hsum : (buyers₁.map vals₁).sum = (buyers₂.map vals₁).sum :=
    (hperm.map _).sum_eq
  rw [normalizeVals, normalizeVals, hsum]

/-! ### Further structural facts -/

lemma rawShapleyW_of_empty {bi : List (α × List ℕ)} {b : α}
    (h : interestsOf bi b = []) (iv : List (ℕ × ℚ)) (ps : List (List α)) :
    rawShapleyW bi iv ps b = 0 := by
  rw [rawShapleyW_eq]
  have hmap : (ps.map fun p => contribFn bi iv p ∅ b) = ps.map fun _ => (0 : ℚ) :=
    List.map_congr_left fun p _ => contribFn_of_empty h iv p ∅
  rw [hmap, sum_map_const_q, mul_zero, zero_div]

lemma interestsOf_all_empty {bi : List (α × List ℕ)}
    (hall : ∀ pr ∈ bi, pr.2 = []) (b : α) : interestsOf bi b = [] := by
  induction bi with
  | nil => rfl
  | cons pr rest ih =>
    obtain ⟨a, l⟩ := pr
    rw [interestsOf]
    split_ifs with h
    · exact hall (a, l) (List.mem_cons_self _ _)
    · exact ih fun q hq => hall q (List.mem_cons_of_mem _ hq)

lemma uniqueItems_all_empty {bi : List (α × List ℕ)}
    (hall : ∀ pr ∈ bi, pr.2 = []) : uniqueItems bi = ∅ := by
  ext x
  simp only [mem_uniqueItems, Finset.not_mem_empty, iff_false, not_exists]
  rintro pr ⟨hpr, hx⟩
  rw [hall pr hpr] at hx
  cases hx

/-- An element of a looked-up interest list comes from some pair of the
association list. -/
lemma mem_of_mem_interestsOf {bi : List (α × List ℕ)} {b : α} {it : ℕ}
    (h : it ∈ interestsOf bi b) : ∃ pr ∈ bi, it ∈ pr.2 := by
  induction bi with
  | nil => cases h
  | cons pr rest ih =>
    obtain ⟨a, l⟩ := pr
    rw [interestsOf] at h
    split_ifs at h with hba
    · exact ⟨(a, l), List.mem_cons_self _ _, h⟩
    · obtain ⟨q, hq, hq2⟩ := ih h
      exact ⟨q, List.mem_cons_of_mem _ hq, hq2⟩

/-- With duplicate-free interest lists, the code's per-item value is the
spec's `1 / congestion` on every demanded item, hence the raw scores agree
with the spec formula. -/
lemma rawSimpl_eq_scoreSpec {bi : List (α × List ℕ)}
    (hnodup : ∀ pr ∈ bi, pr.2.Nodup) (b : α) :
    rawSimpl bi b = scoreSpec bi b := by
  rw [rawSimpl, scoreSpec]
  apply congrArg
  apply List.map_congr_left
  intro it hit
  have hcnt : 0 < interestCount bi it := by
    rw [interestCount, List.count_pos_iff]
    obtain ⟨pr, hpr, hitpr⟩ := mem_of_mem_interestsOf hit
    exact List.mem_flatten.mpr ⟨pr.2, List.mem_map_of_mem Prod.snd hpr, hitpr⟩
  rw [itemValSimpl, if_pos hcnt, interestCount_eq_congestion hnodup]

/-- The guarded default-table construction succeeds whenever the divisor is
non-zero (and trivially on the empty item list). -/
lemma buildDefaultTable_some (price : ℚ) {d : ℕ} (hd : d ≠ 0) (l : List ℕ) :
    buildDefaultTable price d l
      = some (l.map fun it => (it, price / (d : ℚ))) := by
  induction l with
  | nil => rfl
  | cons it rest ih =>
    rw [buildDefaultTable, guardedDiv, if_neg hd, ih]
    rfl

/-- The guarded solver never hits the division-by-zero branch: the division
is evaluated only once per element of the union of demands, and when that
union is non-empty its cardinality is non-zero. -/
lemma calculate_valuesG_some (price : ℚ) (bi : List (α × List ℕ))
    (iv : Option (List (ℕ × ℚ))) :
    ∃ r, calculate_valuesG price bi iv = some r := by
  rw [calculate_valuesG.eq_def]
  by_cases hbi : bi = []
  · rw [if_pos hbi]
    exact ⟨[], rfl⟩
  · rw [if_neg hbi]
    cases iv with
    | some t => exact ⟨_, rfl⟩
    | none =>
      by_cases hcard : (uniqueItems bi).card = 0
      · have hfl : (bi.map Prod.snd).flatten = [] := by
          by_contra hne
          obtain ⟨x, hx⟩ := List.exists_mem_of_ne_nil _ hne
          have hxU : x ∈ uniqueItems bi := List.mem_toFinset.mpr hx
          rw [Finset.card_eq_zero.mp hcard] at hxU
          exact absurd hxU (Finset.not_mem_empty x)
        rw [hfl]
        exact ⟨_, rfl⟩
      · rw [buildDefaultTable_some price hcard]
        exact ⟨_, rfl⟩

/-! ### Claim theorems -/

/-- C1: Efficiency — for every price and every demand profile (distinct
buyers) in which at least one buyer has non-empty demand, the share mapping
returned by the exact solver (default item-value table) and by the
approximate solver sums exactly to the bundle price. -/
theorem claim_C1_efficiency (price : ℚ) (bi : List (α × List ℕ))
    (hn : (keys bi).Nodup) (hne : ∃ pr ∈ bi, pr.2 ≠ []) :
    ((calculate_values price bi none).map Prod.snd).sum = price
      ∧ ((calculate_values_simplified price bi).map Prod.snd).sum = price := by
  obtain ⟨pr0, hpr0, hne0⟩ := hne
  have hbne : bi ≠ [] := by rintro rfl; cases hpr0
  have hUne : (uniqueItems bi).Nonempty := by
    obtain ⟨it, hit⟩ := List.exists_mem_of_ne_nil _ hne0
    exact ⟨it, mem_uniqueItems.mpr ⟨pr0, hpr0, hit⟩⟩
  constructor
  · rw [calculate_values, if_neg hbne]
    show ((exactCore price bi (defaultTable price bi)).map Prod.snd).sum = price
    rw [exactCore, List.map_map]
    have hcomp : (Prod.snd ∘ fun b => (b,
        normalizeVals price (keys bi) (rawShapley bi (defaultTable price bi)) b))
        = normalizeVals price (keys bi) (rawShapley bi (defaultTable price bi)) :=
      rfl
    rw [hcomp]
    apply sum_normalizeVals_eq
    rw [sum_rawShapley hn, setVal_default_uniqueItems price hUne]
  · rw [calculate_values_simplified, List.map_map]
    have hcomp : (Prod.snd ∘ fun b => (b,
        normalizeVals price (keys bi) (rawSimpl bi) b))
        = normalizeVals price (keys bi) (rawSimpl bi) := rfl
    rw [hcomp]
    apply sum_normalizeVals_pos
    rw [sum_rawSimpl hn]
    exact_mod_cast Finset.card_pos.mpr hUne

/-- Witness for C1: a single buyer demanding one item, price 7. -/
theorem claim_C1_witness :
    ((calculate_values (7 : ℚ) [((1 : ℕ), [(5 : ℕ)])] none).map Prod.snd).sum = 7
      ∧ ((calculate_values_simplified (7 : ℚ) [((1 : ℕ), [(5 : ℕ)])]).map
          Prod.snd).sum = 7 :=
  claim_C1_efficiency 7 [(1, [5])] (by decide) ⟨(1, [5]), by decide, by decide⟩

/-- C2: the exact solver's pre-normalization accumulation equals the
axiomatic Shapley formula `φ_b = (1/n!) · Σ_π [v(Pred_π(b) ∪ b) − v(Pred_π(b))]`
with `v` summing table values over the union of the coalition's demands. -/
theorem claim_C2_raw_eq_formula (bi : List (α × List ℕ)) (iv : List (ℕ × ℚ))
    (hn : (keys bi).Nodup) (hne : bi ≠ []) {b : α} (hb : b ∈ keys bi) :
    rawShapley bi iv b = shapleySpec bi iv b :=
  rawShapley_eq_phi hn iv hb

/-- Witness for C2: two buyers sharing one item, explicit table. -/
theorem claim_C2_witness :
    rawShapley [((1 : ℕ), [(1 : ℕ)]), (2, [1])] [(1, (10 : ℚ))] 1
      = shapleySpec [((1 : ℕ), [(1 : ℕ)]), (2, [1])] [(1, (10 : ℚ))] 1 :=
  claim_C2_raw_eq_formula _ _ (by decide) (by decide) (by decide)

/-- C3 as stated is false at its own example: with price 50 and two buyers
with empty demand sets, both solvers return share 0 for each buyer, not the
claimed equal split of 25. -/
theorem claim_C3_counterexample :
    dget (calculate_values (50 : ℚ) [((1 : ℕ), ([] : List ℕ)), (2, [])] none) 1
        = 0
      ∧ dget (calculate_values_simplified (50 : ℚ)
          [((1 : ℕ), ([] : List ℕ)), (2, [])]) 1 = 0
      ∧ dget (calculate_values (50 : ℚ) [((1 : ℕ), ([] : List ℕ)), (2, [])] none) 1
          ≠ 25 := by
  refine ⟨?_, ?_, ?_⟩ <;> with_unfolding_all decide

/-- C3 amended: when the raw values sum to 0 (e.g. every buyer has an empty
demand set), both solvers skip the rescaling and return the raw value 0 for
every buyer; there is no equal-split fallback, so with price 50 and two
empty-demand buyers each share is 0, not 25. -/
theorem claim_C3_amended (price : ℚ) (bi : List (α × List ℕ))
    (hall : ∀ pr ∈ bi, pr.2 = []) :
    ∀ b ∈ keys bi,
      dget (calculate_values price bi none) b = 0
        ∧ dget (calculate_values_simplified price bi) b = 0 := by
  intro b hb
  have hbne : bi ≠ [] := by
    rintro rfl
    simp [keys] at hb
  have hemp : interestsOf bi b = [] := interestsOf_all_empty hall b
  constructor
  · rw [calculate_values, if_neg hbne, dget_exactCore, if_pos hb]
    exact normalizeVals_zero _ _
      (by rw [rawShapley]; exact rawShapleyW_of_empty hemp _ _)
  · rw [dget_simplified, if_pos hb]
    exact normalizeVals_zero _ _ (by rw [rawSimpl, hemp]; rfl)

/-- Witness for C3 (amended): the degenerate scenario itself. -/
theorem claim_C3_witness :
    dget (calculate_values (50 : ℚ) [((7 : ℕ), ([] : List ℕ)), (8, [])] none) 7
        = 0
      ∧ dget (calculate_values_simplified (50 : ℚ)
          [((7 : ℕ), ([] : List ℕ)), (8, [])]) 7 = 0 :=
  claim_C3_amended 50 [(7, []), (8, [])] (by decide) 7 (by decide)

/-- C4 as stated is false: the guarded embedding of `calculate_values`
returns a result — not an error — both for an empty demand profile and for
a negative price. -/
theorem claim_C4_counterexample :
    calculate_valuesG (5 : ℚ) ([] : List (ℕ × List ℕ)) none = some []
      ∧ calculate_valuesG (-1 : ℚ) [((1 : ℕ), [(2 : ℕ)])] none
          = some [(1, -1)] := by
  constructor <;> with_unfolding_all decide

/-- C4 amended: `calculate_values` performs no input validation — every
call returns a share mapping (no `InvalidInput` error path exists); an
empty demand profile yields the empty mapping and negative prices are
processed normally. -/
theorem claim_C4_amended (price : ℚ) (bi : List (α × List ℕ))
    (iv : Option (List (ℕ × ℚ))) :
    (∃ r, calculate_valuesG price bi iv = some r)
      ∧ (bi = [] → calculate_valuesG price bi iv = some []) := by
  refine ⟨calculate_valuesG_some price bi iv, fun h => ?_⟩
  rw [calculate_valuesG.eq_def, if_pos h]

/-- Witness for C4 (amended). -/
theorem claim_C4_witness :
    (∃ r, calculate_valuesG (3 : ℚ) [((4 : ℕ), [(9 : ℕ)])] none = some r)
      ∧ ([((4 : ℕ), [(9 : ℕ)])] = ([] : List (ℕ × List ℕ)) →
          calculate_valuesG (3 : ℚ) [((4 : ℕ), [(9 : ℕ)])] none = some []) :=
  claim_C4_amended 3 [(4, [9])] none

/-- C5: the approximate solver returns, for each buyer, the price times the
buyer's score `Σ 1/congestion(item)` divided by the total of all scores,
whenever interest lists are duplicate-free and some demand is non-empty. -/
theorem claim_C5_simplified_formula (price : ℚ) (bi : List (α × List ℕ))
    (hn : (keys bi).Nodup) (hnd : ∀ pr ∈ bi, pr.2.Nodup)
    (hne : ∃ pr ∈ bi, pr.2 ≠ []) :
    ∀ b ∈ keys bi,
      dget (calculate_values_simplified price bi) b
        = price * scoreSpec bi b / ((keys bi).map (scoreSpec bi)).sum := by
  intro b hb
  have hUne : (uniqueItems bi).Nonempty := by
    obtain ⟨pr0, hpr0, hne0⟩ := hne
    obtain ⟨it, hit⟩ := List.exists_mem_of_ne_nil _ hne0
    exact ⟨it, mem_uniqueItems.mpr ⟨pr0, hpr0, hit⟩⟩
  have hscore : ∀ c, rawSimpl bi c = scoreSpec bi c := rawSimpl_eq_scoreSpec hnd
  have hmapeq : (keys bi).map (rawSimpl bi) = (keys bi).map (scoreSpec bi) :=
    List.map_congr_left fun c _ => hscore c
  have htotpos : ((keys bi).map (rawSimpl bi)).sum > 0 := by
    rw [sum_rawSimpl hn]
    exact_mod_cast Finset.card_pos.mpr hUne
  rw [dget_simplified, if_pos hb, normalizeVals_pos _ _ _ htotpos, hscore b,
    hmapeq]
  ring

/-- Witness for C5: price 150, two buyers demanding the same single item,
each pays 75. -/
theorem claim_C5_witness :
    dget (calculate_values_simplified (150 : ℚ) [((1 : ℕ), [(7 : ℕ)]), (2, [7])]) 1
        = 150 * scoreSpec [((1 : ℕ), [(7 : ℕ)]), (2, [7])] 1
            / ((keys [((1 : ℕ), [(7 : ℕ)]), (2, [7])]).map
                (scoreSpec [((1 : ℕ), [(7 : ℕ)]), (2, [7])])).sum
      ∧ dget (calculate_values_simplified (150 : ℚ)
            [((1 : ℕ), [(7 : ℕ)]), (2, [7])]) 1 = 75
      ∧ dget (calculate_values_simplified (150 : ℚ)
            [((1 : ℕ), [(7 : ℕ)]), (2, [7])]) 2 = 75 :=
  ⟨claim_C5_simplified_formula 150 _ (by decide) (by decide)
      ⟨(1, [7]), by decide, by decide⟩ 1 (by decide),
    by with_unfolding_all decide, by with_unfolding_all decide⟩

/-- C6: Symmetry — for every price, demand profile and optional item-value
table, two buyers whose demand lists denote the same set of items receive
equal shares from the exact solver. -/
theorem claim_C6_symmetry (price : ℚ) (bi : List (α × List ℕ))
    (iv : Option (List (ℕ × ℚ))) (hn : (keys bi).Nodup)
    {i j : α} {li lj : List ℕ} (hi : (i, li) ∈ bi) (hj : (j, lj) ∈ bi)
    (hset : li.toFinset = lj.toFinset) :
    dget (calculate_values price bi iv) i
      = dget (calculate_values price bi iv) j := by
  by_cases hij : i = j
  · rw [hij]
  · have hbne : bi ≠ [] := by rintro rfl; cases hi
    have hD : (interestsOf bi i).toFinset = (interestsOf bi j).toFinset := by
      rw [interestsOf_mem hn hi, interestsOf_mem hn hj, hset]
    have hik : i ∈ keys bi := mem_keys.mpr ⟨li, hi⟩
    have hjk : j ∈ keys bi := mem_keys.mpr ⟨lj, hj⟩
    rw [calculate_values, if_neg hbne, dget_exactCore, dget_exactCore,
      if_pos hik, if_pos hjk]
    exact normalizeVals_congr_pt price (keys bi) _
      (rawShapley_swap hn hij hik hjk hD _)

/-- Witness for C6: two buyers with the same demand set written in
different orders split the price equally; plus the spec's three-buyer
pairwise-overlap scenario where each share is 30. -/
theorem claim_C6_witness :
    dget (calculate_values (60 : ℚ) [((1 : ℕ), [(4 : ℕ), 5]), (2, [5, 4])] none) 1
        = dget (calculate_values (60 : ℚ)
            [((1 : ℕ), [(4 : ℕ), 5]), (2, [5, 4])] none) 2
      ∧ dget (calculate_values (90 : ℚ)
            [((1 : ℕ), [(1 : ℕ), 2]), (2, [2, 3]), (3, [1, 3])] none) 1 = 30
      ∧ dget (calculate_values (90 : ℚ)
            [((1 : ℕ), [(1 : ℕ), 2]), (2, [2, 3]), (3, [1, 3])] none) 2 = 30
      ∧ dget (calculate_values (90 : ℚ)
            [((1 : ℕ), [(1 : ℕ), 2]), (2, [2, 3]), (3, [1, 3])] none) 3 = 30 :=
  ⟨@claim_C6_symmetry ℕ _ 60 [(1, [4, 5]), (2, [5, 4])] none (by decide)
      1 2 [4, 5] [5, 4] (by decide) (by decide) (by decide),
    by with_unfolding_all decide, by with_unfolding_all decide,
    by with_unfolding_all decide⟩

/-- C7: Null player — a buyer with an empty demand set receives exactly 0
from the exact solver, for every price and optional table, whenever some
other buyer has non-empty demand. -/
theorem claim_C7_null_player (price : ℚ) (bi : List (α × List ℕ))
    (iv : Option (List (ℕ × ℚ))) (hn : (keys bi).Nodup) {b : α}
    (hb : (b, ([] : List ℕ)) ∈ bi) (hother : ∃ pr ∈ bi, pr.2 ≠ []) :
    dget (calculate_values price bi iv) b = 0 := by
  have hbne : bi ≠ [] := by rintro rfl; cases hb
  have hbk : b ∈ keys bi := mem_keys.mpr ⟨[], hb⟩
  have hemp : interestsOf bi b = [] := interestsOf_mem hn hb
  rw [calculate_values, if_neg hbne, dget_exactCore, if_pos hbk]
  exact normalizeVals_zero _ _
    (by rw [rawShapley]; exact rawShapleyW_of_empty hemp _ _)

/-- Witness for C7: the spec's price-200 scenario; the demanding buyer pays
the whole price and the null player pays 0. -/
theorem claim_C7_witness :
    dget (calculate_values (200 : ℚ) [((1 : ℕ), [(1 : ℕ), 2, 3]), (2, [])] none) 2
        = 0
      ∧ dget (calculate_values (200 : ℚ)
          [((1 : ℕ), [(1 : ℕ), 2, 3]), (2, [])] none) 1 = 200 :=
  ⟨claim_C7_null_player 200 _ none (by decide) (by decide)
      ⟨(1, [1, 2, 3]), by decide, by decide⟩,
    by with_unfolding_all decide⟩

/-- C8: Non-negativity — with a non-negative price and a supplied table of
non-negative values (or no table), no share returned by either solver is
negative. -/
theorem claim_C8_nonneg (price : ℚ) (bi : List (α × List ℕ))
    (iv : Option (List (ℕ × ℚ))) (hp : 0 ≤ price)
    (hiv : ∀ t, iv = some t → ∀ pr ∈ t, 0 ≤ pr.2) :
    (∀ pr ∈ calculate_values price bi iv, 0 ≤ pr.2)
      ∧ ∀ pr ∈ calculate_values_simplified price bi, 0 ≤ pr.2 := by
  have htbl : ∀ pr ∈ iv.getD (defaultTable price bi), 0 ≤ pr.2 := by
    cases iv with
    | none => exact defaultTable_nonneg hp bi
    | some t => exact hiv t rfl
  constructor
  · intro pr hpr
    rw [calculate_values] at hpr
    by_cases hbne : bi = []
    · rw [if_pos hbne] at hpr
      cases hpr
    · rw [if_neg hbne, exactCore] at hpr
      obtain ⟨b, _, rfl⟩ := List.mem_map.mp hpr
      exact normalizeVals_nonneg hp _
        (fun c => by rw [rawShapley]; exact rawShapleyW_nonneg htbl bi _ c) b
  · intro pr hpr
    rw [calculate_values_simplified] at hpr
    obtain ⟨b, _, rfl⟩ := List.mem_map.mp hpr
    exact normalizeVals_nonneg hp _ (rawSimpl_nonneg bi) b

/-- Witness for C8. -/
theorem claim_C8_witness :
    (∀ pr ∈ calculate_values (10 : ℚ) [((1 : ℕ), [(2 : ℕ)]), (2, [2, 3])] none,
        0 ≤ pr.2)
      ∧ ∀ pr ∈ calculate_values_simplified (10 : ℚ)
          [((1 : ℕ), [(2 : ℕ)]), (2, [2, 3])], 0 ≤ pr.2 :=
  claim_C8_nonneg 10 _ none (by norm_num) fun t ht => nomatch ht

/-- C9: the solver is a pure function whose result depends only on the set
of buyer/demand pairs, not on the iteration order of the input mapping
(first conjunct), and not on the enumeration order of the permutations
(second conjunct); the third conjunct records that `calculate_values` is the
instance of the generalized solver at the canonical permutation list. -/
theorem claim_C9_invariance :
    (∀ (price : ℚ) (bi₁ bi₂ : List (α × List ℕ)) (iv : Option (List (ℕ × ℚ))),
        (keys bi₁).Nodup → List.Perm bi₁ bi₂ →
          ∀ b, dget (calculate_values price bi₁ iv) b
            = dget (calculate_values price bi₂ iv) b)
      ∧ (∀ (price : ℚ) (bi : List (α × List ℕ)) (iv : List (ℕ × ℚ))
          (ps₁ ps₂ : List (List α)), List.Perm ps₁ ps₂ →
            ∀ b, dget (exactCoreW price bi iv ps₁) b
              = dget (exactCoreW price bi iv ps₂) b)
      ∧ ∀ (price : ℚ) (bi : List (α × List ℕ)) (iv : List (ℕ × ℚ)),
          exactCore price bi iv
            = exactCoreW price bi iv (keys bi).permutations' := by
  refine ⟨?_, ?_, fun _ _ _ => rfl⟩
  · intro price bi₁ bi₂ iv hn hp b
    by_cases hbe : bi₁ = []
    · subst hbe
      rw [hp.symm.eq_nil]
    · have hbe2 : bi₂ ≠ [] := fun h => hbe (h ▸ hp).eq_nil
      have hkeys : List.Perm (keys bi₁) (keys bi₂) := hp.map Prod.fst
      have hiv : ∀ k, dget (iv.getD (defaultTable price bi₁)) k
          = dget (iv.getD (defaultTable price bi₂)) k := by
        cases iv with
        | some t => intro k; rfl
        | none =>
          intro k
          show dget (defaultTable price bi₁) k = dget (defaultTable price bi₂) k
          rw [dget_defaultTable, dget_defaultTable, uniqueItems_perm hp]
      rw [calculate_values, calculate_values, if_neg hbe, if_neg hbe2,
        dget_exactCore, dget_exactCore]
      by_cases hbk : b ∈ keys bi₁
      · rw [if_pos hbk, if_pos (hkeys.mem_iff.mp hbk)]
        exact normalizeVals_perm_congr price hkeys
          (rawShapley_perm hn hp hiv) b
      · rw [if_neg hbk, if_neg fun hc => hbk (hkeys.mem_iff.mpr hc)]
  · intro price bi iv ps₁ ps₂ hps b
    rw [exactCoreW, exactCoreW, dget_map_fun, dget_map_fun]
    by_cases hb : b ∈ keys bi
    · rw [if_pos hb, if_pos hb]
      exact normalizeVals_perm_congr price (List.Perm.refl _)
        (rawShapleyW_perm bi iv hps) b
    · rw [if_neg hb, if_neg hb]

/-- Witness for C9: a reordered two-buyer profile and a shuffled
permutation list give the same shares. -/
theorem claim_C9_witness :
    dget (calculate_values (9 : ℚ) [((1 : ℕ), [(1 : ℕ)]), (2, [2])] none) 1
        = dget (calculate_values (9 : ℚ) [((2 : ℕ), [(2 : ℕ)]), (1, [1])] none) 1
      ∧ dget (exactCoreW (9 : ℚ) [((1 : ℕ), [(1 : ℕ)]), (2, [2])] [(1, (5 : ℚ))]
            [[1, 2], [2, 1]]) 1
          = dget (exactCoreW (9 : ℚ) [((1 : ℕ), [(1 : ℕ)]), (2, [2])]
              [(1, (5 : ℚ))] [[2, 1], [1, 2]]) 1 :=
  ⟨claim_C9_invariance.1 9 _ _ none (by decide) (by decide) 1,
    claim_C9_invariance.2.1 9 _ _ [[1, 2], [2, 1]] [[2, 1], [1, 2]]
      (by decide) 1⟩

/-- C10 as stated is false: with every demand set empty the guarded call
still returns a share mapping (all zeros) — the division-by-zero branch is
not reached, because the per-item division of the comprehension is never
evaluated over the empty union. -/
theorem claim_C10_counterexample :
    calculate_valuesG (50 : ℚ) [((1 : ℕ), ([] : List ℕ)), (2, [])] none
      = some [(1, 0), (2, 0)] := by
  with_unfolding_all decide

/-- C10 amended: the division in the default-table construction is
evaluated once per item of the union of demands, so when every demand set
is empty no division is evaluated and the guarded call returns the
all-zero share mapping (the division-by-zero branch is unreachable). -/
theorem claim_C10_amended (price : ℚ) (bi : List (α × List ℕ))
    (hall : ∀ pr ∈ bi, pr.2 = []) :
    calculate_valuesG price bi none
      = some ((keys bi).map fun b => (b, 0)) := by
  rw [calculate_valuesG.eq_def]
  by_cases hbe : bi = []
  · rw [if_pos hbe, hbe]
    rfl
  · rw [if_neg hbe]
    have hfl : (bi.map Prod.snd).flatten = [] := by
      rw [List.flatten_eq_nil_iff]
      intro l hl
      obtain ⟨pr, hpr, rfl⟩ := List.mem_map.mp hl
      exact hall pr hpr
    rw [hfl]
    show some (exactCore price bi []) = _
    refine congrArg some ?_
    rw [exactCore]
    apply List.map_congr_left
    intro b _
    have hz : normalizeVals price (keys bi) (rawShapley bi []) b = 0 :=
      normalizeVals_zero _ _
        (by rw [rawShapley]
            exact rawShapleyW_of_empty (interestsOf_all_empty hall b) _ _)
    rw [hz]

/-- Witness for C10 (amended). -/
theorem claim_C10_witness :
    calculate_valuesG (8 : ℚ) [((3 : ℕ), ([] : List ℕ))] none
      = some [(3, 0)] :=
  claim_C10_amended 8 [(3, [])] (by decide)

end ShapleyCoord
